import Mathlib

/-!
Verification of the ogomanager dashboard's client-side business logic.

The development shallowly embeds the data model (src/hooks/useProjects.ts
interfaces, the SQL schema in the repository root) and the pure computations
of the analytics, export, search, and CRUD code paths. Monetary amounts
(DECIMAL(10,2) columns handled as JS numbers) are modelled as exact rationals;
the (year, month) observation that the analytics code extracts from a
created-at timestamp via the JS Date API is modelled as an explicit pair.
-/

namespace Ogo

/-- Project status, the TS union type in src/types
('Running' | 'Pending' | 'Delivered' | 'Correction' | 'Rejected'),
also the CHECK constraint of the projects table. -/
inductive Status where
  | Running
  | Pending
  | Delivered
  | Correction
  | Rejected
  deriving DecidableEq

/-- Rendering of a status as the string stored in the DB and written to CSV. -/
def Status.text : Status → String
  | .Running => "Running"
  | .Pending => "Pending"
  | .Delivered => "Delivered"
  | .Correction => "Correction"
  | .Rejected => "Rejected"

/-- Employee record (interface Employee in src/types / employees table). -/
structure Employee where
  id : String
  employeeId : String
  birthday : String
  firstName : String
  lastName : String
  position : String
  address : String
  whatsappNumber : String
  emailAddress : String
  qualifications : String
  deriving DecidableEq

/-- The (getFullYear, getMonth) observation of a JS Date; month is 0-based
as returned by Date.getMonth. -/
structure CalDate where
  year : Nat
  month : Nat
  deriving DecidableEq

/-- Project record (interface Project in src/types / projects table).
assignedTo is the nullable assigned_to foreign key; createdAt is the
parsed (year, month) observation of the created_at timestamp, none when the
record has no timestamp. -/
structure Project where
  id : String
  projectId : String
  clientName : String
  clientUniOrg : String
  projectDescription : String
  deadlineDate : String
  price : ℚ
  advance : ℚ
  assignedTo : Option String
  paymentOfEmp : ℚ
  status : Status
  fastDeliver : Bool
  createdAt : Option CalDate
  updatedAt : String
  deriving DecidableEq

/-- Total revenue of a project list: the reduce over project.price in
Analytics.tsx (totalRevenue) and ReportModal.tsx. -/
def totalRevenue (ps : List Project) : ℚ :=
  ps.foldl (fun sum p => sum + p.price) 0

/-- Total employee payments: the reduce over project.paymentOfEmp in
Analytics.tsx (totalEmployeePayments) and ReportModal.tsx. -/
def totalEmployeePayments (ps : List Project) : ℚ :=
  ps.foldl (fun sum p => sum + p.paymentOfEmp) 0

/-- Profit as computed in Analytics.tsx line 125 and ReportModal.tsx line 32:
totalRevenue - totalEmployeePayments. -/
def profit (ps : List Project) : ℚ :=
  totalRevenue ps - totalEmployeePayments ps

/-- Profit margin as computed in Analytics.tsx line 126 and ReportModal.tsx
line 33: (profit / totalRevenue) * 100 when totalRevenue > 0, else 0. -/
def profitMargin (ps : List Project) : ℚ :=
  if totalRevenue ps > 0 then (profit ps / totalRevenue ps) * 100 else 0

lemma foldl_add_eq_sum (f : Project → ℚ) :
    ∀ (ps : List Project) (a : ℚ),
      ps.foldl (fun sum p => sum + f p) a = a + (ps.map f).sum := by
  intro ps
  induction ps with
  | nil => intro a; simp
  | cons p rest ih =>
      intro a
      simp only [List.foldl_cons, List.map_cons, List.sum_cons]
      rw [ih]
      ring

lemma totalRevenue_eq_sum (ps : List Project) :
    totalRevenue ps = (ps.map Project.price).sum := by
  unfold totalRevenue
  rw [foldl_add_eq_sum]
  ring

lemma totalEmployeePayments_eq_sum (ps : List Project) :
    totalEmployeePayments ps = (ps.map Project.paymentOfEmp).sum := by
  unfold totalEmployeePayments
  rw [foldl_add_eq_sum]
  ring

/-- C1: for every project list (any subset, in particular the month/year
filtered list used by Analytics and ReportModal), the computed profit equals
the sum of the projects' prices minus the sum of their employee payments. -/
theorem profit_eq_revenue_sub_payments (ps : List Project) :
    profit ps = (ps.map Project.price).sum - (ps.map Project.paymentOfEmp).sum := by
  unfold profit
  rw [totalRevenue_eq_sum, totalEmployeePayments_eq_sum]

/-- C4: the profit-margin percentage satisfies
profitMargin * totalRevenue = profit * 100 whenever total revenue is strictly
positive (it is exactly profit / totalRevenue * 100, and that division is only
taken in this branch), and is 0 when total revenue is not positive. -/
theorem profitMargin_zero_guarded (ps : List Project) :
    (0 < totalRevenue ps →
      profitMargin ps = profit ps / totalRevenue ps * 100 ∧
      profitMargin ps * totalRevenue ps = profit ps * 100) ∧
    (totalRevenue ps ≤ 0 → profitMargin ps = 0) := by
  constructor
  · intro hpos
    have hne : totalRevenue ps ≠ 0 := ne_of_gt hpos
    constructor
    · unfold profitMargin
      rw [if_pos hpos]
    · unfold profitMargin
      rw [if_pos hpos]
      field_simp
  · intro hnonpos
    unfold profitMargin
    rw [if_neg (by exact not_lt.mpr hnonpos)]

/-- Sample project used to instantiate proved theorems at concrete inputs. -/
def sampleProject : Project :=
  { id := "uuid-1"
  , projectId := "PJ1000"
  , clientName := "Alice"
  , clientUniOrg := "University A"
  , projectDescription := "1"
  , deadlineDate := "2024-12-31"
  , price := 100
  , advance := 20
  , assignedTo := some "emp-1"
  , paymentOfEmp := 40
  , status := Status.Delivered
  , fastDeliver := false
  , createdAt := some ⟨2024, 0⟩
  , updatedAt := "2024-01-02" }

theorem profitMargin_zero_guarded_witness :
    profitMargin [sampleProject] = profit [sampleProject] / totalRevenue [sampleProject] * 100 ∧
    profitMargin [sampleProject] * totalRevenue [sampleProject] = profit [sampleProject] * 100 :=
  (profitMargin_zero_guarded [sampleProject]).1
    (by rw [totalRevenue_eq_sum]; norm_num [sampleProject])

/-! ## useProjects hook: per-operation error handling (C9) -/

/-- Local state of the useProjects hook: the projects list and the inline
error message (null after setError(null) on a successful operation). -/
structure ProjectsHookState where
  projects : List Project
  error : Option String
  deriving DecidableEq

/-- One addProject call of src/hooks/useProjects.ts, as a function of the
remote outcome: none models both an insert error and a thrown exception
(either path calls setError and returns without touching the list); some
carries the mapped row returned by the insert, which is prepended. -/
def addProjectStep (st : ProjectsHookState) (remote : Option Project) : ProjectsHookState :=
  match remote with
  | none => { st with error := some "Failed to add project" }
  | some newProject => { projects := newProject :: st.projects, error := none }

/-- One updateProject call of src/hooks/useProjects.ts: on remote error the
state keeps its list and records the message; on success the row with the
given id is replaced by the mapped returned row. -/
def updateProjectStep (st : ProjectsHookState) (id : String) (remote : Option Project) :
    ProjectsHookState :=
  match remote with
  | none => { st with error := some "Failed to update project" }
  | some updatedProject =>
      { projects := st.projects.map (fun project => if project.id = id then updatedProject else project)
      , error := none }

/-- One deleteProject call of src/hooks/useProjects.ts: on remote error the
state keeps its list and records the message; on success the row with the
given id is removed. -/
def deleteProjectStep (st : ProjectsHookState) (id : String) (remote : Option Unit) :
    ProjectsHookState :=
  match remote with
  | none => { st with error := some "Failed to delete project" }
  | some _ =>
      { projects := st.projects.filter (fun project => ¬ project.id = id)
      , error := none }

/-- C9: for each of addProject, updateProject and deleteProject, a failing
remote operation leaves the local projects list unchanged and sets the inline
error message, and the list is modified (prepend, replace by id, remove by id)
exactly when the operation succeeds, in which case the error is cleared. -/
theorem hook_ops_error_handling (st : ProjectsHookState) (id : String) (p : Project) :
    ((addProjectStep st none).projects = st.projects ∧
      (addProjectStep st none).error = some "Failed to add project") ∧
    ((addProjectStep st (some p)).projects = p :: st.projects ∧
      (addProjectStep st (some p)).error = none) ∧
    ((updateProjectStep st id none).projects = st.projects ∧
      (updateProjectStep st id none).error = some "Failed to update project") ∧
    ((updateProjectStep st id (some p)).projects
        = st.projects.map (fun q => if q.id = id then p else q) ∧
      (updateProjectStep st id (some p)).error = none) ∧
    ((deleteProjectStep st id none).projects = st.projects ∧
      (deleteProjectStep st id none).error = some "Failed to delete project") ∧
    ((deleteProjectStep st id (some ())).projects
        = st.projects.filter (fun q => ¬ q.id = id) ∧
      (deleteProjectStep st id (some ())).error = none) := by
  refine ⟨⟨rfl, rfl⟩, ⟨rfl, rfl⟩, ⟨rfl, rfl⟩, ⟨rfl, rfl⟩, ⟨rfl, rfl⟩, rfl, rfl⟩

/-! ## ProjectManagement handleAdd: suggested project id (C10) -/

/-- Decimal digit characters, the character class matched by the d escape in
the regex of handleAdd (ProjectManagement.tsx). -/
def digitChars : List Char := ['0', '1', '2', '3', '4', '5', '6', '7', '8', '9']

/-- Test for the regex PJ followed by at least four digits and nothing else
(the filter in handleAdd). -/
def pjPatternMatch (pid : String) : Bool :=
  match pid.data with
  | 'P' :: 'J' :: rest => decide (rest.length ≥ 4) && rest.all (fun c => digitChars.contains c)
  | _ => false

/-- Numeric value of a digit character. -/
def digitVal (c : Char) : ℕ := digitChars.findIdx (fun d => d = c)

/-- Decimal value of a digit sequence, the behaviour of parseInt(-, 10) on an
all-digit string. -/
def parseDigits (cs : List Char) : ℕ :=
  cs.foldl (fun n c => n * 10 + digitVal c) 0

/-- parseInt(pid.replace('PJ', ''), 10) for a pid matching the pattern: the
first occurrence of PJ in such a pid is its two-character head, so the
replacement by the empty string drops the head. -/
def pjNum (pid : String) : ℕ := parseDigits (pid.data.drop 2)

/-- The suggested project id computed by handleAdd in ProjectManagement.tsx:
PJ followed by one plus the maximum numeric suffix of the existing ids
matching the pattern, and PJ1000 when none matches. Math.max over the
nonempty list of (nonnegative) suffixes is the fold of max from 0. -/
def suggestedProjectId (projects : List Project) : String :=
  let projectIds := (projects.map Project.projectId).filter pjPatternMatch
  let nextIdNum : ℕ :=
    if projectIds.isEmpty then 1000
    else ((projectIds.map pjNum).foldl max 0) + 1
  "PJ" ++ toString nextIdNum

lemma foldl_max_le_iff (l : List ℕ) : ∀ (a m : ℕ), l.foldl max a ≤ m ↔ a ≤ m ∧ ∀ n ∈ l, n ≤ m := by
  induction l with
  | nil => intro a m; simp
  | cons x rest ih =>
      intro a m
      simp only [List.foldl_cons, List.mem_cons]
      rw [ih]
      constructor
      · rintro ⟨hax, hrest⟩
        exact ⟨le_trans (le_max_left a x) hax,
          fun n hn => hn.elim (fun h => h ▸ le_trans (le_max_right a x) hax) (hrest n)⟩
      · rintro ⟨ha, hall⟩
        exact ⟨max_le ha (hall x (Or.inl rfl)), fun n hn => hall n (Or.inr hn)⟩

lemma foldl_max_mem (l : List ℕ) : ∀ a : ℕ, l.foldl max a = a ∨ l.foldl max a ∈ l := by
  induction l with
  | nil => intro a; simp
  | cons x rest ih =>
      intro a
      simp only [List.foldl_cons, List.mem_cons]
      rcases ih (max a x) with h | h
      · rcases max_cases a x with ⟨hm, _⟩ | ⟨hm, _⟩
        · exact Or.inl (h.trans hm)
        · exact Or.inr (Or.inl (h.trans hm))
      · exact Or.inr (Or.inr h)

lemma foldl_max_zero_mem (l : List ℕ) (h : l ≠ []) : l.foldl max 0 ∈ l := by
  rcases foldl_max_mem l 0 with h0 | hmem
  · rcases l with _ | ⟨x, rest⟩
    · exact absurd rfl h
    · have hall := ((foldl_max_le_iff (x :: rest) 0 0).mp (le_of_eq h0)).2
      have hx : x = 0 := Nat.le_zero.mp (hall x (by simp))
      rw [h0, ← hx]
      simp
  · exact hmem

/-- C10: the suggested project id is PJ1000 when no existing project id
matches the pattern PJ plus at least four digits, and otherwise is PJ
followed by one plus the maximum numeric suffix among the matching ids. -/
theorem suggestedProjectId_spec (ps : List Project) :
    ((ps.map Project.projectId).filter pjPatternMatch = [] →
      suggestedProjectId ps = "PJ1000") ∧
    (((ps.map Project.projectId).filter pjPatternMatch) ≠ [] →
      ∃ m ∈ ((ps.map Project.projectId).filter pjPatternMatch).map pjNum,
        (∀ n ∈ ((ps.map Project.projectId).filter pjPatternMatch).map pjNum, n ≤ m) ∧
        suggestedProjectId ps = "PJ" ++ toString (m + 1)) := by
  constructor
  · intro hempty
    unfold suggestedProjectId
    rw [hempty]
    rfl
  · intro hne
    have hnumsne : ((ps.map Project.projectId).filter pjPatternMatch).map pjNum ≠ [] := by
      simpa using hne
    refine ⟨(((ps.map Project.projectId).filter pjPatternMatch).map pjNum).foldl max 0,
      foldl_max_zero_mem _ hnumsne, ?_, ?_⟩
    · exact ((foldl_max_le_iff _ 0 _).mp le_rfl).2
    · have hisEmpty : ((ps.map Project.projectId).filter pjPatternMatch).isEmpty = false := by
        rcases h : (ps.map Project.projectId).filter pjPatternMatch with _ | _
        · exact absurd h hne
        · rfl
      unfold suggestedProjectId
      simp [hisEmpty]

theorem suggestedProjectId_spec_witness :
    ∃ m ∈ (([sampleProject].map Project.projectId).filter pjPatternMatch).map pjNum,
      (∀ n ∈ (([sampleProject].map Project.projectId).filter pjPatternMatch).map pjNum, n ≤ m) ∧
      suggestedProjectId [sampleProject] = "PJ" ++ toString (m + 1) :=
  (suggestedProjectId_spec [sampleProject]).2 (by decide)

/-! ## Analytics employee performance (C3) -/

/-- One entry of the employeePerformance array in Analytics.tsx: the employee
record together with the derived figures computed in the useMemo. -/
structure EmployeePerf where
  employee : Employee
  projectCount : ℕ
  completedProjects : ℕ
  totalEarnings : ℚ
  revenue : ℚ
  displayValue : ℚ
  completionRate : ℚ
  isRanukaJayesh : Bool
  deriving DecidableEq

/-- The body of the employees.map in the employeePerformance useMemo of
Analytics.tsx (lines 128 to 146), for one employee over the filtered
projects. -/
def employeePerfOf (filteredProjects : List Project) (employee : Employee) : EmployeePerf :=
  let employeeProjects := filteredProjects.filter (fun p => p.assignedTo = some employee.id)
  let completed := (employeeProjects.filter (fun p => p.status = Status.Delivered)).length
  let totalEarnings := employeeProjects.foldl (fun sum p => sum + p.paymentOfEmp) 0
  let revenue := employeeProjects.foldl (fun sum p => sum + p.price) 0
  let isRJ := (employee.firstName ++ " " ++ employee.lastName).toLower = "ranuka jayesh"
  { employee := employee
  , projectCount := employeeProjects.length
  , completedProjects := completed
  , totalEarnings := totalEarnings
  , revenue := revenue
  , displayValue := if isRJ then revenue else totalEarnings
  , completionRate :=
      if employeeProjects.length > 0 then ((completed : ℚ) / (employeeProjects.length : ℚ)) * 100
      else 0
  , isRanukaJayesh := isRJ }

/-- The employeePerformance array: the map over employees followed by the
sort descending by displayValue (the b.displayValue - a.displayValue
comparator). -/
def employeePerformance (employees : List Employee) (filteredProjects : List Project) :
    List EmployeePerf :=
  (employees.map (employeePerfOf filteredProjects)).mergeSort
    (fun a b => decide (b.displayValue ≤ a.displayValue))

/-- C3: for every employee in the list, the output array holds a record for
that employee whose completion rate is the count of the employee's filtered
projects with status Delivered divided by the employee's filtered project
count, times 100, and is 0 when the employee has no filtered project, so the
division is guarded against a zero denominator. -/
theorem employeePerformance_completionRate (emps : List Employee) (ps : List Project)
    (e : Employee) (he : e ∈ emps) :
    ∃ r ∈ employeePerformance emps ps,
      r.employee = e ∧
      (0 < (ps.filter (fun p => p.assignedTo = some e.id)).length →
        r.completionRate =
          ((((ps.filter (fun p => p.assignedTo = some e.id)).filter
              (fun p => p.status = Status.Delivered)).length : ℚ) /
            (((ps.filter (fun p => p.assignedTo = some e.id)).length : ℚ))) * 100) ∧
      ((ps.filter (fun p => p.assignedTo = some e.id)).length = 0 →
        r.completionRate = 0) := by
  refine ⟨employeePerfOf ps e, ?_, rfl, ?_, ?_⟩
  · have hmem : employeePerfOf ps e ∈ emps.map (employeePerfOf ps) :=
      List.mem_map_of_mem (employeePerfOf ps) he
    exact ((List.mergeSort_perm (emps.map (employeePerfOf ps))
      (fun a b => decide (b.displayValue ≤ a.displayValue))).mem_iff).mpr hmem
  · intro hpos
    unfold employeePerfOf
    simp only [gt_iff_lt]
    rw [if_pos hpos]
  · intro hzero
    unfold employeePerfOf
    simp only [gt_iff_lt]
    rw [if_neg (by omega)]

/-- Sample employee used to instantiate proved theorems at concrete inputs. -/
def sampleEmployee : Employee :=
  { id := "emp-1"
  , employeeId := "EMP001"
  , birthday := "1999-01-01"
  , firstName := "Bob"
  , lastName := "Silva"
  , position := "Developer"
  , address := "Colombo"
  , whatsappNumber := "0770000000"
  , emailAddress := "bob@example.com"
  , qualifications := "BSc" }

theorem employeePerformance_completionRate_witness :
    ∃ r ∈ employeePerformance [sampleEmployee] [],
      r.employee = sampleEmployee ∧
      (0 < (([] : List Project).filter (fun p => p.assignedTo = some sampleEmployee.id)).length →
        r.completionRate =
          (((((([] : List Project)).filter (fun p => p.assignedTo = some sampleEmployee.id)).filter
              (fun p => p.status = Status.Delivered)).length : ℚ) /
            ((((([] : List Project)).filter (fun p => p.assignedTo = some sampleEmployee.id)).length : ℚ))) * 100) ∧
      ((([] : List Project).filter (fun p => p.assignedTo = some sampleEmployee.id)).length = 0 →
        r.completionRate = 0) :=
  employeePerformance_completionRate [sampleEmployee] [] sampleEmployee (by simp)

/-! ## Analytics monthly aggregation (C2) -/

/-- One entry of the monthlyData record in Analytics.tsx (interface
MonthlyData). -/
structure MonthlyData where
  month : String
  revenue : ℚ
  projects : ℕ
  completed : ℕ
  employeePayments : ℚ
  deriving DecidableEq

/-- String(x).padStart(2, '0') on an arbitrary string: left-pad with zeros
to length at least two. -/
def padTwo (s : String) : String :=
  if s.length ≥ 2 then s else ⟨List.replicate (2 - s.length) '0' ++ s.data⟩

/-- The month key template of the monthlyData useMemo:
date.getFullYear() followed by a dash and the zero-padded
date.getMonth() + 1. -/
def monthKey (d : CalDate) : String :=
  toString d.year ++ "-" ++ padTwo (toString (d.month + 1))

/-- Month key of a project, none for projects with no creation timestamp
(forEach returns early on those). -/
def keyOf (p : Project) : Option String := p.createdAt.map monthKey

/-- The four increments applied to a bucket for one project in the forEach
body of monthlyData. -/
def updateBucket (b : MonthlyData) (p : Project) : MonthlyData :=
  { b with
      revenue := b.revenue + p.price
    , projects := b.projects + 1
    , employeePayments := b.employeePayments + p.paymentOfEmp
    , completed := if p.status = Status.Delivered then b.completed + 1 else b.completed }

/-- The bucket created when a month key is first seen (all figures zero). -/
def emptyBucket (key : String) : MonthlyData :=
  { month := key, revenue := 0, projects := 0, completed := 0, employeePayments := 0 }

/-- Apply one project to the association table months: update the existing
bucket of the key in place, or append a fresh bucket at the end (JS object
insertion order) and update it. -/
def updateMonths : List (String × MonthlyData) → String → Project → List (String × MonthlyData)
  | [], key, p => [(key, updateBucket (emptyBucket key) p)]
  | (k, b) :: rest, key, p =>
      if k = key then (k, updateBucket b p) :: rest
      else (k, b) :: updateMonths rest key p

/-- The months table built by the forEach of the monthlyData useMemo over the
filtered projects (projects without a creation timestamp are skipped). -/
def monthsTable (ps : List Project) : List (String × MonthlyData) :=
  ps.foldl
    (fun months p =>
      match keyOf p with
      | none => months
      | some key => updateMonths months key p)
    []

/-- monthlyData: Object.values of the months table, sorted by the
localeCompare comparator on the month key. -/
def monthlyData (ps : List Project) : List MonthlyData :=
  ((monthsTable ps).map Prod.snd).mergeSort (fun a b => decide (a.month ≤ b.month))

/-- The projects a given month key owns: those whose creation timestamp maps
to the key. -/
def bucketFor (k : String) (ps : List Project) : List Project :=
  ps.filter (fun p => keyOf p = some k)

/-- The bucket a key should hold according to the specification: revenue the
sum of prices, projects the count, employeePayments the sum of employee
payments, completed the count of Delivered projects. -/
def mkBucket (k : String) (qs : List Project) : MonthlyData :=
  { month := k
  , revenue := (qs.map Project.price).sum
  , projects := qs.length
  , completed := (qs.filter (fun p => p.status = Status.Delivered)).length
  , employeePayments := (qs.map Project.paymentOfEmp).sum }

/-- First-match lookup in the association table (the months[monthKey]
access). -/
def findBucket : List (String × MonthlyData) → String → Option MonthlyData
  | [], _ => none
  | (k, b) :: rest, key => if k = key then some b else findBucket rest key

lemma updateMonths_find_same (ms : List (String × MonthlyData)) (key : String) (p : Project) :
    findBucket (updateMonths ms key p) key
      = some (updateBucket ((findBucket ms key).getD (emptyBucket key)) p) := by
  induction ms with
  | nil => simp [updateMonths, findBucket]
  | cons kb rest ih =>
      obtain ⟨k, b⟩ := kb
      by_cases hk : k = key
      · simp [updateMonths, findBucket, hk]
      · simp [updateMonths, findBucket, hk, ih]

lemma updateMonths_find_other (ms : List (String × MonthlyData)) (key k : String) (p : Project)
    (hne : k ≠ key) :
    findBucket (updateMonths ms key p) k = findBucket ms k := by
  induction ms with
  | nil => simp [updateMonths, findBucket, Ne.symm hne]
  | cons kb rest ih =>
      obtain ⟨k0, b⟩ := kb
      by_cases hk : k0 = key
      · subst hk
        simp [updateMonths, findBucket, Ne.symm hne]
      · by_cases hk0 : k0 = k
        · simp [updateMonths, findBucket, hk, hk0, hne]
        · simp [updateMonths, findBucket, hk, hk0, ih]

lemma updateMonths_keys_mem (ms : List (String × MonthlyData)) (key k : String) (p : Project) :
    k ∈ (updateMonths ms key p).map Prod.fst ↔ k ∈ ms.map Prod.fst ∨ k = key := by
  induction ms with
  | nil => simp [updateMonths]
  | cons kb rest ih =>
      obtain ⟨k0, b⟩ := kb
      by_cases hk : k0 = key
      · subst hk
        simp only [updateMonths, List.map_cons, List.mem_cons, eq_self_iff_true, if_true]
        tauto
      · simp only [updateMonths, if_neg hk, List.map_cons, List.mem_cons, ih]
        tauto

lemma updateMonths_keys_nodup (ms : List (String × MonthlyData)) (key : String) (p : Project)
    (h : (ms.map Prod.fst).Nodup) : ((updateMonths ms key p).map Prod.fst).Nodup := by
  induction ms with
  | nil => simp [updateMonths]
  | cons kb rest ih =>
      obtain ⟨k0, b⟩ := kb
      simp only [List.map_cons, List.nodup_cons] at h
      by_cases hk : k0 = key
      · simpa [updateMonths, hk, List.nodup_cons] using h
      · simp only [updateMonths, if_neg hk, List.map_cons, List.nodup_cons]
        refine ⟨?_, ih h.2⟩
        rw [updateMonths_keys_mem]
        rintro (hmem | hmem)
        · exact h.1 hmem
        · exact hk hmem

lemma updateMonths_month_eq (ms : List (String × MonthlyData)) (key : String) (p : Project)
    (h : ∀ kb ∈ ms, (Prod.snd kb).month = kb.1) :
    ∀ kb ∈ updateMonths ms key p, (Prod.snd kb).month = kb.1 := by
  induction ms with
  | nil =>
      intro kb hkb
      simp only [updateMonths, List.mem_singleton] at hkb
      subst hkb
      rfl
  | cons kb0 rest ih =>
      obtain ⟨k0, b⟩ := kb0
      by_cases hk : k0 = key
      · intro kb hkb
        simp only [updateMonths, if_pos hk, List.mem_cons] at hkb
        rcases hkb with hkb | hkb
        · subst hkb
          exact h (k0, b) (by simp)
        · exact h kb (List.mem_cons_of_mem _ hkb)
      · intro kb hkb
        simp only [updateMonths, if_neg hk, List.mem_cons] at hkb
        rcases hkb with hkb | hkb
        · subst hkb
          exact h (k0, b) (by simp)
        · exact ih (fun x hx => h x (List.mem_cons_of_mem _ hx)) kb hkb

lemma findBucket_none_iff (ms : List (String × MonthlyData)) (k : String) :
    findBucket ms k = none ↔ k ∉ ms.map Prod.fst := by
  induction ms with
  | nil => simp [findBucket]
  | cons kb rest ih =>
      obtain ⟨k0, b⟩ := kb
      by_cases hk : k0 = k
      · simp [findBucket, hk]
      · simp [findBucket, hk, ih, Ne.symm hk]

lemma findBucket_some_mem (ms : List (String × MonthlyData)) (k : String) (b : MonthlyData)
    (h : findBucket ms k = some b) : (k, b) ∈ ms := by
  induction ms with
  | nil => simp [findBucket] at h
  | cons kb rest ih =>
      obtain ⟨k0, b0⟩ := kb
      by_cases hk : k0 = k
      · subst hk
        have hb : b0 = b := by simpa [findBucket] using h
        subst hb
        simp
      · simp only [findBucket, if_neg hk] at h
        exact List.mem_cons_of_mem _ (ih h)

lemma mem_findBucket_of_nodup (ms : List (String × MonthlyData)) (k : String) (b : MonthlyData)
    (hnd : (ms.map Prod.fst).Nodup) (hmem : (k, b) ∈ ms) : findBucket ms k = some b := by
  induction ms with
  | nil => simp at hmem
  | cons kb rest ih =>
      obtain ⟨k0, b0⟩ := kb
      simp only [List.map_cons, List.nodup_cons] at hnd
      rcases List.mem_cons.mp hmem with h | h
      · rw [Prod.mk.injEq] at h
        obtain ⟨hk, hb⟩ := h
        subst hk
        subst hb
        simp [findBucket]
      · by_cases hk : k0 = k
        · subst hk
          exact absurd (List.mem_map_of_mem Prod.fst h) hnd.1
        · simp only [findBucket, if_neg hk]
          exact ih hnd.2 h

lemma updateBucket_mkBucket (k : String) (qs : List Project) (p : Project) :
    updateBucket (mkBucket k qs) p = mkBucket k (qs ++ [p]) := by
  unfold updateBucket mkBucket
  by_cases hst : p.status = Status.Delivered
  · simp [hst, List.filter_append]
  · simp [hst, List.filter_append]

lemma updateBucket_emptyBucket (k : String) (p : Project) :
    updateBucket (emptyBucket k) p = mkBucket k [p] := by
  have h := updateBucket_mkBucket k [] p
  simpa [mkBucket, emptyBucket] using h

lemma monthsTable_append (l : List Project) (p : Project) :
    monthsTable (l ++ [p]) =
      match keyOf p with
      | none => monthsTable l
      | some key => updateMonths (monthsTable l) key p := by
  simp [monthsTable, List.foldl_append]

lemma monthsTable_findBucket (ps : List Project) (k : String) :
    findBucket (monthsTable ps) k =
      if bucketFor k ps = [] then none else some (mkBucket k (bucketFor k ps)) := by
  induction ps using List.reverseRecOn with
  | nil => simp [monthsTable, findBucket, bucketFor]
  | append_singleton l p ih =>
      rw [monthsTable_append]
      rcases hkey : keyOf p with _ | key
      · have hfilter : bucketFor k (l ++ [p]) = bucketFor k l := by
          simp [bucketFor, List.filter_append, hkey]
        rw [hfilter]
        exact ih
      · by_cases hkk : k = key
        · subst hkk
          rw [updateMonths_find_same]
          have hfilter : bucketFor k (l ++ [p]) = bucketFor k l ++ [p] := by
            simp [bucketFor, List.filter_append, hkey]
          rw [hfilter, ih]
          by_cases hempty : bucketFor k l = []
          · rw [if_pos hempty, hempty]
            rw [if_neg (by simp)]
            simp [Option.getD, updateBucket_emptyBucket]
          · rw [if_neg hempty, if_neg (by simp)]
            simp [Option.getD, updateBucket_mkBucket]
        · rw [updateMonths_find_other _ _ _ _ hkk]
          have hfilter : bucketFor k (l ++ [p]) = bucketFor k l := by
            simp [bucketFor, List.filter_append, hkey, Ne.symm hkk]
          rw [hfilter]
          exact ih

lemma monthsTable_keys_nodup (ps : List Project) :
    ((monthsTable ps).map Prod.fst).Nodup := by
  induction ps using List.reverseRecOn with
  | nil => simp [monthsTable]
  | append_singleton l p ih =>
      rw [monthsTable_append]
      rcases keyOf p with _ | key
      · exact ih
      · exact updateMonths_keys_nodup _ _ _ ih

lemma monthsTable_month_eq (ps : List Project) :
    ∀ kb ∈ monthsTable ps, (Prod.snd kb).month = kb.1 := by
  induction ps using List.reverseRecOn with
  | nil => simp [monthsTable]
  | append_singleton l p ih =>
      rw [monthsTable_append]
      rcases keyOf p with _ | key
      · exact ih
      · exact updateMonths_month_eq _ _ _ ih

lemma monthlyData_perm (ps : List Project) :
    (monthlyData ps).Perm ((monthsTable ps).map Prod.snd) :=
  List.mergeSort_perm _ _

/-- C2: each project with a creation timestamp is covered by exactly one
bucket of monthlyData (the bucket whose month equals the project's month
key; the month keys of the buckets are pairwise distinct), and every bucket
carries exactly the figures of the projects whose month key is its month:
revenue the sum of their prices, projects their count, employeePayments the
sum of their employee payments, completed the count of those with status
Delivered. -/
theorem monthlyData_aggregation (ps : List Project) :
    (((monthlyData ps).map MonthlyData.month).Nodup) ∧
    (∀ p ∈ ps, ∀ d, p.createdAt = some d →
      ∃ b ∈ monthlyData ps, b.month = monthKey d) ∧
    (∀ b ∈ monthlyData ps,
      b.revenue = ((bucketFor b.month ps).map Project.price).sum ∧
      b.projects = (bucketFor b.month ps).length ∧
      b.employeePayments = ((bucketFor b.month ps).map Project.paymentOfEmp).sum ∧
      b.completed = ((bucketFor b.month ps).filter
        (fun p => p.status = Status.Delivered)).length) := by
  have hmonths : ((monthsTable ps).map Prod.snd).map MonthlyData.month
      = (monthsTable ps).map Prod.fst := by
    rw [List.map_map]
    exact List.map_congr_left (fun kb hkb => monthsTable_month_eq ps kb hkb)
  refine ⟨?_, ?_, ?_⟩
  · have hperm : ((monthlyData ps).map MonthlyData.month).Perm
        (((monthsTable ps).map Prod.snd).map MonthlyData.month) :=
      (monthlyData_perm ps).map MonthlyData.month
    rw [hperm.nodup_iff, hmonths]
    exact monthsTable_keys_nodup ps
  · intro p hp d hd
    have hkey : keyOf p = some (monthKey d) := by simp [keyOf, hd]
    have hne : bucketFor (monthKey d) ps ≠ [] := by
      intro hempty
      have : p ∈ bucketFor (monthKey d) ps := by
        simp only [bucketFor, List.mem_filter]
        exact ⟨hp, by simp [hkey]⟩
      rw [hempty] at this
      simp at this
    have hfind := monthsTable_findBucket ps (monthKey d)
    rw [if_neg hne] at hfind
    have hmem := findBucket_some_mem _ _ _ hfind
    refine ⟨mkBucket (monthKey d) (bucketFor (monthKey d) ps), ?_, rfl⟩
    rw [(monthlyData_perm ps).mem_iff]
    exact List.mem_map_of_mem Prod.snd hmem
  · intro b hb
    have hmem : b ∈ (monthsTable ps).map Prod.snd :=
      (monthlyData_perm ps).mem_iff.mp hb
    obtain ⟨kb, hkb, hsnd⟩ := List.mem_map.mp hmem
    obtain ⟨k, b0⟩ := kb
    have hmonth : b.month = k := by
      have hm := monthsTable_month_eq ps (k, b0) hkb
      simp only at hsnd
      rw [← hsnd]
      exact hm
    have hfindb : findBucket (monthsTable ps) k = some b := by
      have := mem_findBucket_of_nodup _ _ _ (monthsTable_keys_nodup ps) hkb
      rw [← hsnd]
      exact this
    have hchar := monthsTable_findBucket ps k
    rw [hfindb] at hchar
    by_cases hempty : bucketFor k ps = []
    · rw [if_pos hempty] at hchar
      exact absurd hchar (by simp)
    · rw [if_neg hempty] at hchar
      have hb_eq : b = mkBucket k (bucketFor k ps) := Option.some.inj hchar
      rw [hmonth, hb_eq]
      exact ⟨rfl, rfl, rfl, rfl⟩

theorem monthlyData_aggregation_witness :
    ∃ b ∈ monthlyData [sampleProject], b.month = monthKey ⟨2024, 0⟩ :=
  (monthlyData_aggregation [sampleProject]).2.1 sampleProject (by simp) ⟨2024, 0⟩ rfl

/-! ## Analytics CSV export (C5) -/

/-- A project-type taxonomy row (project_types table). -/
structure ProjectType where
  id : String
  name : String
  deriving DecidableEq

/-- The header cells of exportToExcel in Analytics.tsx. -/
def csvHeaders : List String :=
  [ "ID", "Project ID", "Client Name", "Client Uni/Org", "Project Description"
  , "Deadline Date", "Price", "Advance", "Assigned To", "Payment of Employee"
  , "Status", "Fast Deliver", "Created At", "Updated At" ]

/-- Wrap a cell in double quotes, as exportToExcel does for the name, org,
description and assignee cells. -/
def quoteField (s : String) : String := "\"" ++ s ++ "\""

/-- getProjectTypeNames in exportToExcel: split the comma-joined type-id
field, trim each id, and replace it with the taxonomy name, or an Unknown
Type marker; empty description yields a fixed message. -/
def getProjectTypeNames (projectTypes : List ProjectType) (projectDescription : String) :
    String :=
  if projectDescription = "" then "No types specified"
  else
    let typeIds := (projectDescription.split (fun c => c = ',')).map String.trim
    let typeNames := typeIds.map (fun i =>
      match projectTypes.find? (fun t => t.id = i) with
      | some t => t.name
      | none => "Unknown Type (" ++ i ++ ")")
    String.intercalate ", " typeNames

/-- Rendering of the optional creation timestamp cell; the string form of
the (year, month) observation stands in for the raw timestamp string. -/
def calDateText (d : Option CalDate) : String :=
  match d with
  | none => ""
  | some d => monthKey d

/-- One data row of exportToExcel: the fourteen cells of a project joined
with commas, with the assignee resolved to a name (Unassigned when the
employees list has no matching id). -/
def projectRow (employees : List Employee) (projectTypes : List ProjectType)
    (project : Project) : String :=
  let assignedEmployee := employees.find? (fun emp => some emp.id = project.assignedTo)
  let assignedToName :=
    match assignedEmployee with
    | some emp => emp.firstName ++ " " ++ emp.lastName
    | none => "Unassigned"
  String.intercalate ","
    [ project.id
    , project.projectId
    , quoteField project.clientName
    , quoteField project.clientUniOrg
    , quoteField (getProjectTypeNames projectTypes project.projectDescription)
    , project.deadlineDate
    , toString project.price
    , toString project.advance
    , quoteField assignedToName
    , toString project.paymentOfEmp
    , project.status.text
    , if project.fastDeliver then "Yes" else "No"
    , calDateText project.createdAt
    , project.updatedAt ]

/-- The rows array of exportToExcel: the joined header cells followed by one
data row per filtered project, in the order of the filtered list. -/
def csvRows (employees : List Employee) (projectTypes : List ProjectType)
    (filteredProjects : List Project) : List String :=
  String.intercalate "," csvHeaders :: filteredProjects.map (projectRow employees projectTypes)

/-- csvContent: the rows joined with newlines. -/
def csvContent (employees : List Employee) (projectTypes : List ProjectType)
    (filteredProjects : List Project) : String :=
  String.intercalate "\n" (csvRows employees projectTypes filteredProjects)

/-- C5: the produced CSV consists of exactly one header row followed by
exactly one data row per filtered project, in the order of the filtered
list (row i + 1 is the row of project i), so the exported data row count
equals the filtered project count and the total row count is one more. -/
theorem export_rows_match_projects (emps : List Employee) (pts : List ProjectType)
    (ps : List Project) :
    (csvRows emps pts ps).length = ps.length + 1 ∧
    (csvRows emps pts ps).head? = some (String.intercalate "," csvHeaders) ∧
    (csvRows emps pts ps).tail = ps.map (projectRow emps pts) ∧
    (∀ i (h : i < ps.length),
      (csvRows emps pts ps).get ⟨i + 1, by simp [csvRows]; omega⟩
        = projectRow emps pts (ps.get ⟨i, h⟩)) ∧
    csvContent emps pts ps = String.intercalate "\n" (csvRows emps pts ps) := by
  refine ⟨by simp [csvRows], rfl, rfl, ?_, rfl⟩
  intro i h
  simp [csvRows, List.getElem_map]

theorem export_rows_match_projects_witness :
    (csvRows [sampleEmployee] [] [sampleProject]).get
        ⟨0 + 1, by simp [csvRows]⟩
      = projectRow [sampleEmployee] [] (([sampleProject] : List Project).get ⟨0, by simp⟩) :=
  (export_rows_match_projects [sampleEmployee] [] [sampleProject]).2.2.2.1 0 (by simp)

/-! ## Header search: merge, dedup, and result count (C6, C7) -/

/-- Whether the first character list is an initial segment of the second. -/
def leadMatch : List Char → List Char → Bool
  | [], _ => true
  | _ :: _, [] => false
  | a :: as, b :: bs => a = b && leadMatch as bs

/-- Whether the first character list occurs contiguously in the second. -/
def subMatch (needle : List Char) : List Char → Bool
  | [] => needle.isEmpty
  | c :: rest => leadMatch needle (c :: rest) || subMatch needle rest

/-- JS String.includes: substring containment, the client-visible behaviour
of an ILIKE percent-wrapped pattern for terms without pattern
metacharacters (both sides are lowercased at the call sites to model the
case insensitivity of ILIKE). -/
def strIncludes (s sub : String) : Bool := subMatch sub.data s.data

lemma leadMatch_self : ∀ cs : List Char, leadMatch cs cs = true := by
  intro cs
  induction cs with
  | nil => rfl
  | cons c rest ih => simp [leadMatch, ih]

lemma subMatch_self : ∀ cs : List Char, subMatch cs cs = true := by
  intro cs
  cases cs with
  | nil => rfl
  | cons c rest => simp [subMatch, leadMatch_self]

lemma strIncludes_self (s : String) : strIncludes s s = true := subMatch_self s.data

/-- The merge-and-deduplicate step of the search useEffect in Header.tsx:
all.filter((p, i, arr) =&gt; arr.findIndex(x =&gt; x.id === p.id) === i),
keeping each element whose index is the first index holding its id. -/
def dedupById (all : List Project) : List Project :=
  (all.enum.filter
    (fun ip => all.findIdx (fun x => x.id = ip.2.id) = ip.1)).map Prod.snd

lemma mem_dedupById_iff (l : List Project) (q : Project) :
    q ∈ dedupById l ↔ l[l.findIdx (fun x => x.id = q.id)]? = some q := by
  unfold dedupById
  rw [List.mem_map]
  constructor
  · rintro ⟨⟨i, p⟩, hmem, hsnd⟩
    simp only at hsnd
    subst hsnd
    rw [List.mem_filter] at hmem
    obtain ⟨henum, hidx⟩ := hmem
    have hget := List.mem_enum_iff_getElem?.mp henum
    simp only [decide_eq_true_eq] at hidx
    rw [hidx]
    exact hget
  · intro h
    refine ⟨(l.findIdx (fun x => x.id = q.id), q), ?_, rfl⟩
    rw [List.mem_filter]
    exact ⟨List.mem_enum_iff_getElem?.mpr h, by simp⟩

lemma dedupById_covers (l : List Project) (p : Project) (hp : p ∈ l) :
    ∃ q ∈ dedupById l, q.id = p.id := by
  have hex : ∃ x ∈ l, (fun x : Project => decide (x.id = p.id)) x = true :=
    ⟨p, hp, by simp⟩
  have hlt : l.findIdx (fun x => x.id = p.id) < l.length :=
    List.findIdx_lt_length_of_exists hex
  have hq : (l.get ⟨l.findIdx (fun x => x.id = p.id), hlt⟩).id = p.id := by
    have := @List.findIdx_getElem _ (fun x => decide (x.id = p.id)) l hlt
    simpa using this
  refine ⟨l.get ⟨l.findIdx (fun x => x.id = p.id), hlt⟩, ?_, hq⟩
  rw [mem_dedupById_iff]
  have hpred : (fun x : Project => decide (x.id = (l.get ⟨l.findIdx (fun x => x.id = p.id), hlt⟩).id))
      = (fun x : Project => decide (x.id = p.id)) := by
    funext x
    rw [hq]
  rw [hpred]
  rw [List.getElem?_eq_getElem hlt]
  rfl

lemma dedupById_id_inj (l : List Project) (q1 q2 : Project)
    (h1 : q1 ∈ dedupById l) (h2 : q2 ∈ dedupById l) (hid : q1.id = q2.id) : q1 = q2 := by
  rw [mem_dedupById_iff] at h1 h2
  have hpred : (fun x : Project => decide (x.id = q1.id))
      = (fun x : Project => decide (x.id = q2.id)) := by
    funext x
    rw [hid]
  rw [hpred] at h1
  exact Option.some.inj (h1.symm.trans h2)

lemma dedupById_subset (l : List Project) : dedupById l ⊆ l := by
  intro q hq
  rw [mem_dedupById_iff] at hq
  exact List.getElem?_mem hq

lemma dedupById_nodup (l : List Project) : (dedupById l).Nodup := by
  unfold dedupById
  apply List.Nodup.map_on
  · rintro ⟨i, p⟩ hi ⟨j, q⟩ hj hpq
    simp only at hpq
    rw [List.mem_filter] at hi hj
    obtain ⟨-, hix⟩ := hi
    obtain ⟨-, hjx⟩ := hj
    simp only [decide_eq_true_eq] at hix hjx
    subst hpq
    rw [Prod.mk.injEq]
    exact ⟨hix.symm.trans hjx, rfl⟩
  · exact List.Nodup.filter _ (List.Nodup.of_map Prod.fst (List.nodup_enum_map_fst l))

lemma nodup_filter_length_one {α : Type} (l : List α) (p : α → Bool) (a : α)
    (hnd : l.Nodup) (ha : a ∈ l) (hpa : p a = true)
    (huniq : ∀ x ∈ l, p x = true → x = a) : (l.filter p).length = 1 := by
  induction l with
  | nil => simp at ha
  | cons x rest ih =>
      have hx_rest := (List.nodup_cons.mp hnd)
      rcases List.mem_cons.mp ha with heq | hmem
      · subst heq
        rw [List.filter_cons, if_pos hpa]
        have hrest : rest.filter p = [] := by
          rw [List.filter_eq_nil_iff]
          intro y hy hpy
          exact hx_rest.1 ((huniq y (List.mem_cons_of_mem _ hy) hpy) ▸ hy)
        simp [hrest]
      · have hpx : ¬ p x = true := fun hpx =>
          hx_rest.1 ((huniq x (List.mem_cons_self x rest) hpx) ▸ hmem)
        rw [List.filter_cons, if_neg hpx]
        exact ih hx_rest.2 hmem (fun y hy hpy => huniq y (List.mem_cons_of_mem _ hy) hpy)

lemma dedupById_count_one (l : List Project) (p : Project) (hp : p ∈ l) :
    ((dedupById l).filter (fun q => q.id = p.id)).length = 1 := by
  obtain ⟨q, hq, hqid⟩ := dedupById_covers l p hp
  exact nodup_filter_length_one _ _ q (dedupById_nodup l) hq (by simp [hqid])
    (fun x hx hpx => dedupById_id_inj l x q hx hq
      (by simp only [decide_eq_true_eq] at hpx; rw [hpx, hqid]))

lemma dedupById_ids_nodup (l : List Project) : ((dedupById l).map Project.id).Nodup :=
  List.Nodup.map_on (fun x hx y hy hxy => dedupById_id_inj l x y hx hy hxy)
    (dedupById_nodup l)

/-- C6: merging the four query result lists and deduplicating by project id
keeps, for each project id of the union, exactly one entry (the first
occurrence in the concatenation), and introduces nothing outside the
union. -/
theorem search_merge_dedup (l1 l2 l3 l4 : List Project) :
    (∀ p ∈ l1 ++ l2 ++ l3 ++ l4,
      ((dedupById (l1 ++ l2 ++ l3 ++ l4)).filter (fun q => q.id = p.id)).length = 1) ∧
    (∀ q ∈ dedupById (l1 ++ l2 ++ l3 ++ l4), q ∈ l1 ++ l2 ++ l3 ++ l4) ∧
    (∀ q ∈ dedupById (l1 ++ l2 ++ l3 ++ l4),
      (l1 ++ l2 ++ l3 ++ l4)[(l1 ++ l2 ++ l3 ++ l4).findIdx (fun x => x.id = q.id)]?
        = some q) :=
  ⟨fun p hp => dedupById_count_one _ p hp,
   fun _ hq => dedupById_subset _ hq,
   fun q hq => (mem_dedupById_iff _ q).mp hq⟩

theorem search_merge_dedup_witness :
    ((dedupById ([sampleProject] ++ [sampleProject] ++ [] ++ [])).filter
      (fun q => q.id = sampleProject.id)).length = 1 :=
  (search_merge_dedup [sampleProject] [sampleProject] [] []).1 sampleProject (by simp)

/-- The search computation of the Header.tsx useEffect for a term whose trim
is nonempty: four independent queries against the projects store (by client
name, organization, uppercased project id, and assigned employee), merged
and deduplicated by id. The employee query runs only when some employee
name matches. The early return for a blank term (which just clears the
results) is not represented. -/
def headerSearch (employees : List Employee) (store : List Project)
    (searchValue : String) : List Project :=
  let projectsByName :=
    store.filter (fun p => strIncludes p.clientName.toLower searchValue.toLower)
  let projectsByOrg :=
    store.filter (fun p => strIncludes p.clientUniOrg.toLower searchValue.toLower)
  let projectsById :=
    store.filter (fun p => strIncludes p.projectId.toLower searchValue.toUpper.toLower)
  let matchedEmps :=
    employees.filter (fun emp =>
      strIncludes (emp.firstName ++ " " ++ emp.lastName).toLower searchValue.toLower)
  let empIds := matchedEmps.map Employee.id
  let projectsByEmp :=
    if matchedEmps.isEmpty then []
    else store.filter (fun p =>
      match p.assignedTo with
      | some a => empIds.contains a
      | none => false)
  dedupById (projectsByName ++ projectsByOrg ++ projectsById ++ projectsByEmp)

lemma headerSearch_subset_store (emps : List Employee) (store : List Project)
    (v : String) : headerSearch emps store v ⊆ store := by
  intro q hq
  unfold headerSearch at hq
  have hmem := dedupById_subset _ hq
  simp only [List.mem_append, List.mem_filter] at hmem
  rcases hmem with ((⟨h, -⟩ | ⟨h, -⟩) | ⟨h, -⟩) | h
  · exact h
  · exact h
  · exact h
  · by_cases hm : (emps.filter (fun emp =>
        strIncludes (emp.firstName ++ " " ++ emp.lastName).toLower v.toLower)).isEmpty
    · rw [if_pos hm] at h
      simp at h
    · rw [if_neg hm] at h
      exact (List.mem_filter.mp h).1

/-- C7 (amended): the header search result list never exceeds the size of
the projects store, because deduplication leaves pairwise distinct project
ids all drawn from the store; there is no store-independent fixed cap. -/
theorem headerSearch_le_store (emps : List Employee) (store : List Project) (v : String) :
    (headerSearch emps store v).length ≤ store.length := by
  have hids : ((headerSearch emps store v).map Project.id).Nodup := by
    unfold headerSearch
    exact dedupById_ids_nodup _
  have hsub : (headerSearch emps store v).map Project.id ⊆ store.map Project.id := by
    intro i hi
    obtain ⟨q, hq, hqi⟩ := List.mem_map.mp hi
    exact hqi ▸ List.mem_map_of_mem Project.id (headerSearch_subset_store emps store v hq)
  have hsp := (List.Nodup.subperm hids hsub).length_le
  simpa using hsp

/-- The store family on which the header search exceeds any fixed cap:
distinct ids, every client name equal to the search term. -/
def capStore (n : ℕ) : List Project :=
  (List.range n).map (fun i =>
    { sampleProject with id := String.mk (List.replicate i 'a'), clientName := "alpha" })

lemma capStore_ids_nodup (n : ℕ) : ((capStore n).map Project.id).Nodup := by
  unfold capStore
  rw [List.map_map]
  apply List.Nodup.map
  · intro i j hij
    simp only [Function.comp] at hij
    have : (List.replicate i 'a').length = (List.replicate j 'a').length := by
      have hdata : (String.mk (List.replicate i 'a')).data
          = (String.mk (List.replicate j 'a')).data := by rw [hij]
      simpa using hdata
    simpa using this
  · exact List.nodup_range n

lemma capStore_le_headerSearch (n : ℕ) :
    n ≤ (headerSearch [] (capStore n) "alpha").length := by
  have hname : ∀ p ∈ capStore n, p.clientName = "alpha" := by
    intro p hp
    obtain ⟨i, -, hi⟩ := List.mem_map.mp hp
    rw [← hi]
  have hstore_sub : ∀ p ∈ capStore n,
      p ∈ (capStore n).filter
        (fun p => strIncludes p.clientName.toLower ("alpha" : String).toLower) := by
    intro p hp
    rw [List.mem_filter]
    refine ⟨hp, ?_⟩
    rw [hname p hp]
    exact strIncludes_self _
  have hcover : ∀ i ∈ (capStore n).map Project.id,
      i ∈ (headerSearch [] (capStore n) "alpha").map Project.id := by
    intro i hi
    obtain ⟨p, hp, hpi⟩ := List.mem_map.mp hi
    have hall : p ∈ ((capStore n).filter
          (fun p => strIncludes p.clientName.toLower ("alpha" : String).toLower))
        ++ ((capStore n).filter
          (fun p => strIncludes p.clientUniOrg.toLower ("alpha" : String).toLower))
        ++ ((capStore n).filter
          (fun p => strIncludes p.projectId.toLower ("alpha" : String).toUpper.toLower))
        ++ (if (List.filter (fun emp =>
              strIncludes (emp.firstName ++ " " ++ emp.lastName).toLower
                ("alpha" : String).toLower) ([] : List Employee)).isEmpty then []
            else (capStore n).filter (fun p =>
              match p.assignedTo with
              | some a => (((List.filter (fun emp =>
                  strIncludes (emp.firstName ++ " " ++ emp.lastName).toLower
                    ("alpha" : String).toLower) ([] : List Employee)).map Employee.id)).contains a
              | none => false)) := by
      simp only [List.mem_append]
      exact Or.inl (Or.inl (Or.inl (hstore_sub p hp)))
    obtain ⟨q, hq, hqid⟩ := dedupById_covers _ p hall
    rw [← hpi, ← hqid]
    exact List.mem_map_of_mem Project.id hq
  have hsubfin : ((capStore n).map Project.id).toFinset
      ⊆ ((headerSearch [] (capStore n) "alpha").map Project.id).toFinset := by
    intro i hi
    rw [List.mem_toFinset] at hi ⊢
    exact hcover i hi
  have hcard := Finset.card_le_card hsubfin
  rw [List.toFinset_card_of_nodup (capStore_ids_nodup n)] at hcard
  have hlen : ((capStore n).map Project.id).length = n := by
    simp [capStore]
  rw [hlen] at hcard
  calc n ≤ ((headerSearch [] (capStore n) "alpha").map Project.id).toFinset.card := hcard
    _ ≤ ((headerSearch [] (capStore n) "alpha").map Project.id).length :=
        List.toFinset_card_le _
    _ = (headerSearch [] (capStore n) "alpha").length := List.length_map _ _

/-- C7 counterexample: no fixed cap bounds the header search result count
over all stores; for any candidate cap the store of cap + 1 projects with
distinct ids and client name equal to the term yields cap + 1 results. -/
theorem headerSearch_no_fixed_cap :
    ¬ ∃ cap : ℕ, ∀ (emps : List Employee) (store : List Project) (v : String),
        (headerSearch emps store v).length ≤ cap := by
  rintro ⟨cap, h⟩
  have hup := h [] (capStore (cap + 1)) "alpha"
  have hlow := capStore_le_headerSearch (cap + 1)
  omega

/-! ## Foreign-key invariant on assigned employees (C8) -/

/-- The externally persisted state: the employees and projects tables. -/
structure DBState where
  employees : List Employee
  projects : List Project
  deriving DecidableEq

/-- The foreign-key condition of projects.assigned_to REFERENCES
employees(id): a null reference is allowed, a non-null reference must name
an existing employee row. -/
def fkSatisfied (emps : List Employee) (assignedTo : Option String) : Bool :=
  match assignedTo with
  | none => true
  | some eid => emps.any (fun e => e.id = eid)

/-- Insert of a project row: the database accepts it only when the
foreign-key condition holds for its assigned_to value. -/
def insertProject (s : DBState) (p : Project) : Option DBState :=
  if fkSatisfied s.employees p.assignedTo then
    some { s with projects := p :: s.projects }
  else none

/-- Update of the project row with the given id to the new row values (the
updateProject hook sends new column values for that row); the database
accepts it only when the foreign-key condition holds for the new
assigned_to value. -/
def updateProjectRow (s : DBState) (id : String) (pNew : Project) : Option DBState :=
  if fkSatisfied s.employees pNew.assignedTo then
    some { s with projects := s.projects.map (fun p => if p.id = id then pNew else p) }
  else none

/-- Delete of a project row by id. -/
def deleteProjectRow (s : DBState) (id : String) : DBState :=
  { s with projects := s.projects.filter (fun p => ¬ p.id = id) }

/-- Insert of an employee row. -/
def insertEmployee (s : DBState) (e : Employee) : DBState :=
  { s with employees := e :: s.employees }

/-- Update of the employee row with the given id: the updateEmployee hook
never sends the id column, so the row keeps its id and only the other
fields take the new values. -/
def updateEmployeeRow (s : DBState) (id : String) (eNew : Employee) : DBState :=
  { s with employees := s.employees.map (fun e => if e.id = id then { eNew with id := e.id } else e) }

/-- Delete of an employee row by id with the ON DELETE SET NULL action of
the projects.assigned_to foreign key (updated projects table SQL): every
project assigned to the deleted employee has its reference cleared. -/
def deleteEmployeeRow (s : DBState) (eid : String) : DBState :=
  { employees := s.employees.filter (fun e => ¬ e.id = eid)
  , projects := s.projects.map (fun p =>
      if p.assignedTo = some eid then { p with assignedTo := none } else p) }

/-- States reachable from the empty database through the project and
employee operations the application issues. -/
inductive Reachable : DBState → Prop where
  | init : Reachable { employees := [], projects := [] }
  | addEmp {s : DBState} (e : Employee) : Reachable s → Reachable (insertEmployee s e)
  | updEmp {s : DBState} (id : String) (eNew : Employee) :
      Reachable s → Reachable (updateEmployeeRow s id eNew)
  | delEmp {s : DBState} (eid : String) : Reachable s → Reachable (deleteEmployeeRow s eid)
  | addProj {s sNew : DBState} (p : Project) :
      Reachable s → insertProject s p = some sNew → Reachable sNew
  | updProj {s sNew : DBState} (id : String) (pNew : Project) :
      Reachable s → updateProjectRow s id pNew = some sNew → Reachable sNew
  | delProj {s : DBState} (id : String) : Reachable s → Reachable (deleteProjectRow s id)

/-- The invariant: every non-null assigned employee reference of a project
names an existing employee row. -/
def AssignedOk (s : DBState) : Prop :=
  ∀ p ∈ s.projects, ∀ eid, p.assignedTo = some eid → ∃ e ∈ s.employees, e.id = eid

lemma fkSatisfied_assignedOk (emps : List Employee) (assignedTo : Option String)
    (h : fkSatisfied emps assignedTo = true) :
    ∀ eid, assignedTo = some eid → ∃ e ∈ emps, e.id = eid := by
  intro eid heid
  subst heid
  simp only [fkSatisfied, List.any_eq_true, decide_eq_true_eq] at h
  exact h

lemma assignedOk_insertEmployee (s : DBState) (e : Employee) (h : AssignedOk s) :
    AssignedOk (insertEmployee s e) := by
  intro p hp eid heid
  obtain ⟨e0, he0, hid⟩ := h p hp eid heid
  exact ⟨e0, List.mem_cons_of_mem _ he0, hid⟩

lemma assignedOk_updateEmployeeRow (s : DBState) (id : String) (eNew : Employee)
    (h : AssignedOk s) : AssignedOk (updateEmployeeRow s id eNew) := by
  intro p hp eid heid
  obtain ⟨e0, he0, hid⟩ := h p hp eid heid
  by_cases hcase : e0.id = id
  · refine ⟨{ eNew with id := e0.id }, ?_, hid⟩
    have hmap : (fun e => if e.id = id then { eNew with id := e.id } else e) e0
        = { eNew with id := e0.id } := by simp [hcase]
    exact hmap ▸ List.mem_map_of_mem _ he0
  · refine ⟨e0, ?_, hid⟩
    have hmap : (fun e => if e.id = id then { eNew with id := e.id } else e) e0 = e0 := by
      simp [hcase]
    exact hmap ▸ List.mem_map_of_mem _ he0

lemma assignedOk_deleteEmployeeRow (s : DBState) (eid0 : String) (h : AssignedOk s) :
    AssignedOk (deleteEmployeeRow s eid0) := by
  intro p hp eid heid
  simp only [deleteEmployeeRow, List.mem_map] at hp
  obtain ⟨p0, hp0, hmap⟩ := hp
  by_cases hcase : p0.assignedTo = some eid0
  · rw [if_pos hcase] at hmap
    rw [← hmap] at heid
    simp at heid
  · rw [if_neg hcase] at hmap
    subst hmap
    obtain ⟨e0, he0, hid⟩ := h p0 hp0 eid heid
    refine ⟨e0, ?_, hid⟩
    simp only [deleteEmployeeRow, List.mem_filter]
    refine ⟨he0, ?_⟩
    have hne : e0.id ≠ eid0 := by
      intro hcontra
      apply hcase
      rw [heid, ← hid, hcontra]
    simp [hne]

lemma assignedOk_insertProject (s sNew : DBState) (p : Project) (h : AssignedOk s)
    (hop : insertProject s p = some sNew) : AssignedOk sNew := by
  unfold insertProject at hop
  by_cases hfk : fkSatisfied s.employees p.assignedTo
  · rw [if_pos hfk] at hop
    obtain rfl := Option.some.inj hop
    intro q hq eid heid
    rcases List.mem_cons.mp hq with heq | hmem
    · subst heq
      exact fkSatisfied_assignedOk s.employees q.assignedTo hfk eid heid
    · exact h q hmem eid heid
  · rw [if_neg hfk] at hop
    exact absurd hop (by simp)

lemma assignedOk_updateProjectRow (s sNew : DBState) (id : String) (pNew : Project)
    (h : AssignedOk s) (hop : updateProjectRow s id pNew = some sNew) : AssignedOk sNew := by
  unfold updateProjectRow at hop
  by_cases hfk : fkSatisfied s.employees pNew.assignedTo
  · rw [if_pos hfk] at hop
    obtain rfl := Option.some.inj hop
    intro q hq eid heid
    simp only [List.mem_map] at hq
    obtain ⟨p0, hp0, hmap⟩ := hq
    by_cases hcase : p0.id = id
    · rw [if_pos hcase] at hmap
      rw [← hmap] at heid
      exact fkSatisfied_assignedOk s.employees pNew.assignedTo hfk eid heid
    · rw [if_neg hcase] at hmap
      rw [← hmap] at heid
      exact h p0 hp0 eid heid
  · rw [if_neg hfk] at hop
    exact absurd hop (by simp)

lemma assignedOk_deleteProjectRow (s : DBState) (id : String) (h : AssignedOk s) :
    AssignedOk (deleteProjectRow s id) := by
  intro p hp eid heid
  exact h p (List.mem_filter.mp hp).1 eid heid

/-- C8: every reachable database state keeps the invariant that a non-null
assigned employee reference of a project names an existing employee row:
the invariant holds initially and is preserved by project insert, update
and delete and by employee insert, update and delete (the latter through
the ON DELETE SET NULL action). -/
theorem reachable_assignedOk (s : DBState) (hs : Reachable s) : AssignedOk s := by
  induction hs with
  | init => intro p hp eid heid; simp at hp
  | addEmp e _ ih => exact assignedOk_insertEmployee _ e ih
  | updEmp id eNew _ ih => exact assignedOk_updateEmployeeRow _ id eNew ih
  | delEmp eid _ ih => exact assignedOk_deleteEmployeeRow _ eid ih
  | addProj p _ hop ih => exact assignedOk_insertProject _ _ p ih hop
  | updProj id pNew _ hop ih => exact assignedOk_updateProjectRow _ _ id pNew ih hop
  | delProj id _ ih => exact assignedOk_deleteProjectRow _ id ih

theorem reachable_assignedOk_witness :
    AssignedOk (deleteEmployeeRow
      { employees := [sampleEmployee], projects := [sampleProject] } "emp-1") :=
  reachable_assignedOk _
    (Reachable.delEmp "emp-1"
      (Reachable.addProj sampleProject
        (Reachable.addEmp sampleEmployee Reachable.init) rfl))

end Ogo
